import Mathlib

/-!
A verification development for the MiniCenter repository: a Lean shallow
embedding of its fat-tree topology builder (`src/fat_tree.py`), its learning
forwarding controller (`src/simple_controller.py`), and the distribution
policy component described by the design document, together with theorems
settling the documented properties.

Machine integers are modelled as `Int`/`Nat` (Python integers are unbounded,
so no wrap-around is involved); Python `//` is `Int.fdiv`, Python `%` on a
positive divisor is `Int.emod` (Lean's `%`); fallible code returns `Except`.
-/

/-! ## Fat-tree topology builder (src/fat_tree.py)

Nodes carry the integer that appears in their Mininet name (`c{i}`, `a{i}`,
`e{i}`, `h{i}`).  Every index produced by the source is a value of
`range`/`enumerate`, hence a natural number. -/

inductive Node where
  | core (i : Nat)
  | aggr (i : Nat)
  | edge (i : Nat)
  | host (i : Nat)
deriving DecidableEq, Repr

/-- The graph accumulated by the `addSwitch`/`addHost`/`addLink` calls:
nodes in creation order, links in creation order (as the ordered pair of
`addLink` arguments; links are semantically unordered). -/
structure Topology where
  nodes : List Node
  links : List (Node × Node)
deriving DecidableEq, Repr

/-- `(self.k // 2) ** 2`, the core switch count computed by
`_init_core_switches` (Python `//` is floor division; the value is squared
before being used as a `range` bound, so it is never negative). -/
def coreSwitchCnt (k : Int) : Nat := ((k.fdiv 2) ^ 2).toNat

/-- `self.k // 2` as used inside the per-pod helpers, which only run for
pod indices in `range(k)` (so only when `k > 0`). -/
def halfK (k : Int) : Nat := (k.fdiv 2).toNat

/-- `_init_core_switches`: switches `c0 .. c(coreSwitchCnt-1)`. -/
def initCoreSwitches (k : Int) : List Node :=
  (List.range (coreSwitchCnt k)).map Node.core

/-- `_init_aggr_switches(pod_index, aggr_switch_per_pod)` with
`aggr_switch_per_pod = k // 2`. -/
def initAggrSwitches (k : Int) (pod : Nat) : List Node :=
  (List.range (halfK k)).map (fun i => Node.aggr (pod * halfK k + i))

/-- `_init_edge_switches(pod_index, edge_switch_per_pod)`; the loop bound is
`self.k // 2` (the parameter is ignored by the loop, but equals `k // 2` at
every call site). -/
def initEdgeSwitches (k : Int) (pod : Nat) : List Node :=
  (List.range (halfK k)).map (fun i => Node.edge (pod * halfK k + i))

/-- `_init_hosts(pod_index, hosts_per_pod)` with
`hosts_per_pod = (k//2) * (k//2)`. -/
def initHosts (k : Int) (pod : Nat) : List Node :=
  (List.range (halfK k * halfK k)).map
    (fun i => Node.host (pod * (halfK k * halfK k) + i))

/-- `_connect_hosts_to_edge_switches(hosts_per_edge_switch, edge_switches,
hosts)`: `enumerate` is modelled by indexing over `range(len(edge_switches))`;
Python list indexing `xs[i]` is `List.getD` (the inputs make every index
in-range, matching Python, which would raise otherwise). -/
def connectHostsToEdge (k : Int) (edgeSwitches hosts : List Node) :
    List (Node × Node) :=
  (List.range edgeSwitches.length).flatMap (fun i =>
    (List.range (halfK k)).map (fun j =>
      (hosts.getD (i * halfK k + j) (Node.host 0),
       edgeSwitches.getD i (Node.edge 0))))

/-- `_connect_aggr_to_edge(edge_switches, aggr_switches)`: every edge switch
to every aggregation switch of the pod. -/
def connectAggrToEdge (edgeSwitches aggrSwitches : List Node) :
    List (Node × Node) :=
  edgeSwitches.flatMap (fun e => aggrSwitches.map (fun a => (e, a)))

/-- `_connect_aggr_to_core(core_switches, aggr_switches)`: aggregation
switch `i` (pod-local) to core switches `i*(k//2) + j` for `j < k//2`. -/
def connectAggrToCore (k : Int) (coreSwitches aggrSwitches : List Node) :
    List (Node × Node) :=
  (List.range aggrSwitches.length).flatMap (fun i =>
    (List.range (halfK k)).map (fun j =>
      (aggrSwitches.getD i (Node.aggr 0),
       coreSwitches.getD (i * halfK k + j) (Node.core 0))))

/-- One iteration of the `_init_pods_and_hosts` loop body: the nodes and
links created for pod `pod`. -/
def buildPod (k : Int) (coreSwitches : List Node) (pod : Nat) :
    List Node × List (Node × Node) :=
  let aggrSwitches := initAggrSwitches k pod
  let edgeSwitches := initEdgeSwitches k pod
  let hosts := initHosts k pod
  (aggrSwitches ++ edgeSwitches ++ hosts,
   connectHostsToEdge k edgeSwitches hosts ++
     connectAggrToEdge edgeSwitches aggrSwitches ++
     connectAggrToCore k coreSwitches aggrSwitches)

/-- `FatTreeTopo.build(pod_count)`: raises (`Except.error`) exactly when
`pod_count % 2 != 0`, else creates the core switches and then every pod
(`_init_pods_and_hosts` iterates `pod_index` over `range(k)`, which is empty
when `k <= 0`). -/
def build (k : Int) : Except String Topology :=
  if k % 2 != 0 then .error "pod count must be an even number"
  else
    let coreSwitches := initCoreSwitches k
    let pods := (List.range k.toNat).map (buildPod k coreSwitches)
    .ok { nodes := coreSwitches ++ pods.flatMap Prod.fst,
          links := pods.flatMap Prod.snd }

/-! ## Derived graph notions

`degree`, `linkCnt` and `linked` read the link list as a set of unordered
pairs, as the spec's invariants do.  The pod of a switch/host is the
`pod_index` the construction gave it, recovered from its identifier. -/

def isCore : Node → Bool
  | .core _ => true
  | _ => false

def isAggr : Node → Bool
  | .aggr _ => true
  | _ => false

def isEdge : Node → Bool
  | .edge _ => true
  | _ => false

def isHost : Node → Bool
  | .host _ => true
  | _ => false

/-- An aggregation switch whose pod index (`id / (k/2)`) is `p`. -/
def isAggrInPod (m p : Nat) : Node → Bool
  | .aggr a => decide (a / m = p)
  | _ => false

/-- An edge switch whose pod index (`id / (k/2)`) is `p`. -/
def isEdgeInPod (m p : Nat) : Node → Bool
  | .edge e => decide (e / m = p)
  | _ => false

/-- `l` has `v` as one of its two endpoints. -/
def incident (v : Node) (l : Node × Node) : Bool :=
  decide (l.1 = v) || decide (l.2 = v)

/-- Number of links incident to `v`. -/
def degree (t : Topology) (v : Node) : Nat :=
  t.links.countP (incident v)

/-- `l` joins `v` to a node satisfying `q` (in either orientation). -/
def endP (v : Node) (q : Node → Bool) (l : Node × Node) : Bool :=
  (decide (l.1 = v) && q l.2) || (decide (l.2 = v) && q l.1)

/-- Number of links joining `v` to a node satisfying `q`. -/
def linkCnt (t : Topology) (v : Node) (q : Node → Bool) : Nat :=
  t.links.countP (endP v q)

/-- `u` and `v` are joined by some link (in either orientation). -/
def linked (t : Topology) (u v : Node) : Bool :=
  t.links.any (fun l => decide (l = (u, v) ∨ l = (v, u)))

/-! ## Normal form of the built topology for even radix `k = 2*m`

`topoN m` spells out, with the index arithmetic resolved, exactly the node
and link lists `build (2*m)` produces; the equality is proved below
(`build_even`). -/

def hostEdgeN (m p : Nat) : List (Node × Node) :=
  (List.range m).flatMap (fun i =>
    (List.range m).map (fun j =>
      (Node.host (p * (m * m) + (i * m + j)), Node.edge (p * m + i))))

def edgeAggrN (m p : Nat) : List (Node × Node) :=
  (List.range m).flatMap (fun i =>
    (List.range m).map (fun j =>
      (Node.edge (p * m + i), Node.aggr (p * m + j))))

def aggrCoreN (m p : Nat) : List (Node × Node) :=
  (List.range m).flatMap (fun i =>
    (List.range m).map (fun j =>
      (Node.aggr (p * m + i), Node.core (i * m + j))))

def podNodesN (m p : Nat) : List Node :=
  ((List.range m).map (fun i => Node.aggr (p * m + i))) ++
    ((List.range m).map (fun i => Node.edge (p * m + i))) ++
    ((List.range (m * m)).map (fun i => Node.host (p * (m * m) + i)))

def podLinksN (m p : Nat) : List (Node × Node) :=
  hostEdgeN m p ++ edgeAggrN m p ++ aggrCoreN m p

def topoN (m : Nat) : Topology :=
  { nodes := ((List.range (m * m)).map Node.core) ++
      (List.range (2 * m)).flatMap (podNodesN m),
    links := (List.range (2 * m)).flatMap (podLinksN m) }

/-! ## Forwarding controller (src/simple_controller.py)

Switch datapath ids, ports and MAC addresses are opaque dictionary keys in
the source; they are modelled as natural numbers.  The OpenFlow constants
below are the `ofproto_v1_3` values the source compares against.  Python
dictionaries are modelled as insertion-ordered association lists; the
messages a handler passes to `datapath.send_msg` are collected in order. -/

def OFPP_FLOOD : Nat := 0xfffffffb
def OFPP_CONTROLLER : Nat := 0xfffffffd
def OFPCML_NO_BUFFER : Nat := 0xffff
def OFP_NO_BUFFER : Nat := 0xffffffff
def ETH_TYPE_LLDP : Nat := 0x88cc
def ETH_TYPE_IPV6 : Nat := 0x86dd

abbrev Dpid := Nat
abbrev Mac := Nat
abbrev PortNo := Nat

/-- `parser.OFPActionOutput(port)` or `OFPActionOutput(port, max_len)`. -/
structure ActionOutput where
  port : Nat
  maxLen : Option Nat
deriving DecidableEq, Repr

/-- `parser.OFPMatch(...)`: only the fields this controller ever sets;
`wildcardMatch` is the empty `OFPMatch()`. -/
structure FlowMatch where
  inPort : Option PortNo
  ethDst : Option Mac
  ethSrc : Option Mac
deriving DecidableEq, Repr

def wildcardMatch : FlowMatch := ⟨none, none, none⟩

/-- A message sent to a switch over the control channel. -/
inductive OFMsg where
  | flowModDelete (dpid : Dpid) (mtch : FlowMatch)
  | flowModAdd (dpid : Dpid) (bufferId : Option Nat) (priority : Nat)
      (mtch : FlowMatch) (actions : List ActionOutput) (hardTimeout : Nat)
  | packetOut (dpid : Dpid) (bufferId : Nat) (inPort : PortNo)
      (actions : List ActionOutput) (data : Option (List Nat))
deriving DecidableEq, Repr

/-- Association-list lookup (Python `d[k]` / `k in d`). -/
def alGet {β : Type} (l : List (Nat × β)) (k : Nat) : Option β :=
  match l with
  | [] => none
  | (k', v) :: rest => if k' = k then some v else alGet rest k

/-- Association-list store (Python `d[k] = v`: overwrite in place, or append
a new key in insertion order). -/
def alSet {β : Type} (l : List (Nat × β)) (k : Nat) (v : β) : List (Nat × β) :=
  match l with
  | [] => [(k, v)]
  | (k', v') :: rest =>
      if k' = k then (k, v) :: rest else (k', v') :: alSet rest k v

/-- Per-switch MAC table: `mac -> ingress port`. -/
abbrev MacTable := List (Mac × PortNo)

/-- `self.mac_to_port`: `dpid -> MacTable`. -/
abbrev CtrlState := List (Dpid × MacTable)

/-- The learned port for `mac` on switch `d`, if any. -/
def mtLookup (st : CtrlState) (d : Dpid) (mac : Mac) : Option PortNo :=
  (alGet st d).bind (fun table => alGet table mac)

/-- The Ethernet header fields the handler reads
(`eth.dst`, `eth.src`, `eth.ethertype`). -/
structure EthHeader where
  dst : Mac
  src : Mac
  ethertype : Nat
deriving DecidableEq, Repr

/-- An `EventOFPPacketIn`: the fields of `ev.msg` the handler reads. -/
structure PacketInEvent where
  dpid : Dpid
  inPort : PortNo
  bufferId : Nat
  data : List Nat
  msgLen : Nat
  totalLen : Nat
  eth : EthHeader
deriving DecidableEq, Repr

/-- State and emitted messages after handling one event. -/
structure PIResult where
  state : CtrlState
  msgs : List OFMsg
deriving DecidableEq, Repr

/-- `SimpleController.clear_flows`: one `OFPFlowMod` with `OFPFC_DELETE`
and an empty match, deleting every flow. -/
def clearFlows (dpid : Dpid) : List OFMsg :=
  [.flowModDelete dpid wildcardMatch]

/-- `SimpleController.add_flow(datapath, priority, match, actions,
buffer_id=None, hard_timeout=0)`: `if buffer_id:` is Python truthiness
(`None` and `0` are falsy). -/
def addFlow (dpid : Dpid) (priority : Nat) (mtch : FlowMatch)
    (actions : List ActionOutput) (bufferId : Option Nat)
    (hardTimeout : Nat) : List OFMsg :=
  if bufferId.getD 0 != 0 then
    [.flowModAdd dpid bufferId priority mtch actions hardTimeout]
  else
    [.flowModAdd dpid none priority mtch actions hardTimeout]

/-- `SimpleController.switch_features_handler`: clear the flow table, then
install the table-miss entry (priority 0, empty match, output to the
controller with `OFPCML_NO_BUFFER`). -/
def switchFeaturesHandler (dpid : Dpid) : List OFMsg :=
  clearFlows dpid ++
    addFlow dpid 0 wildcardMatch
      [⟨OFPP_CONTROLLER, some OFPCML_NO_BUFFER⟩] none 0

/-- `SimpleController.packet_in_handler`.  The truncation check only logs;
`self.mac_to_port.setdefault`-style init runs before the ether-type filter;
LLDP and IPv6 frames return with nothing sent; otherwise the source MAC is
learned, the destination looked up (flood if unknown), a unicast flow is
installed when not flooding, and a packet-out is always sent (with payload
bytes exactly when the frame was unbuffered). -/
def packetInHandler (st : CtrlState) (ev : PacketInEvent) : PIResult :=
  let st1 := if (alGet st ev.dpid).isNone then alSet st ev.dpid [] else st
  if ev.eth.ethertype = ETH_TYPE_LLDP then ⟨st1, []⟩
  else if ev.eth.ethertype = ETH_TYPE_IPV6 then ⟨st1, []⟩
  else
    let table := (alGet st1 ev.dpid).getD []
    let table1 := alSet table ev.eth.src ev.inPort
    let st2 := alSet st1 ev.dpid table1
    let outPort : Nat :=
      match alGet table1 ev.eth.dst with
      | some p => p
      | none => OFPP_FLOOD
    let actions := [ActionOutput.mk outPort none]
    let flowMsgs :=
      if outPort != OFPP_FLOOD then
        addFlow ev.dpid 1 ⟨some ev.inPort, some ev.eth.dst, some ev.eth.src⟩
          actions none 300
      else []
    let data := if ev.bufferId = OFP_NO_BUFFER then some ev.data else none
    ⟨st2, flowMsgs ++ [.packetOut ev.dpid ev.bufferId ev.inPort actions data]⟩

/-! ## Distribution policy -/

/-- Modelled from the spec: the Distribution Policy component (`distribute`
and its `UNIFORM`/`RANDOM` policies, design document §4.2) has no source
file in the repository; this section follows the spec's words. -/
inductive Policy where
  | uniform
  | random
deriving DecidableEq, Repr

/-- Modelled from the spec: UNIFORM gives each bin `total div bins` and the
remainder, one unit each, to the first `total mod bins` bins. -/
def uniformDistribute (total bins : Nat) : List Nat :=
  (List.range bins).map
    (fun i => total / bins + if i < total % bins then 1 else 0)

/-- Add one unit to bin `i`. -/
def addUnit (l : List Nat) (i : Nat) : List Nat :=
  l.set i (l.getD i 0 + 1)

/-- Modelled from the spec: RANDOM assigns each unit of `total` to a chosen
bin; the random source is an oracle `choice`, reduced modulo `bins` so every
draw names a bin. -/
def randomDistribute (total bins : Nat) (choice : Nat → Nat) : List Nat :=
  (List.range total).foldl
    (fun acc u => addUnit acc (choice u % bins)) (List.replicate bins 0)

/-- Modelled from the spec: `distribute(total, bins, policy)` fails with
`InvalidDistributionRequest` if `bins <= 0` or `total < 0`, else dispatches
on the policy. -/
def distribute (total bins : Int) (policy : Policy) (choice : Nat → Nat) :
    Except String (List Nat) :=
  if bins ≤ 0 ∨ total < 0 then .error "InvalidDistributionRequest"
  else
    match policy with
    | .uniform => .ok (uniformDistribute total.toNat bins.toNat)
    | .random => .ok (randomDistribute total.toNat bins.toNat choice)

/-! ## The `core_switch_count` property -/

/-- The body of the property `core_switch_count` in `FatTreeTopo`
(`return self.core_switch_count`) is a bare call to the property itself;
evaluation is embedded with an explicit recursion-depth budget: each
unfolding of the body consumes one unit, and a value would be produced only
by a body that ever returned one. -/
def core_switch_count (fuel : Nat) : Option Int :=
  match fuel with
  | 0 => none
  | n + 1 => core_switch_count n

/-! ## Association list lemmas -/

lemma alGet_alSet_self {β : Type} (l : List (Nat × β)) (k : Nat) (v : β) :
    alGet (alSet l k v) k = some v := by
  induction l with
  | nil => simp [alGet, alSet]
  | cons h rest ih =>
      obtain ⟨k', v'⟩ := h
      by_cases hk : k' = k
      · simp [alGet, alSet, hk]
      · simp [alGet, alSet, hk, ih]

lemma alGet_alSet_ne {β : Type} (l : List (Nat × β)) {k k' : Nat} (v : β)
    (h : k' ≠ k) : alGet (alSet l k v) k' = alGet l k' := by
  induction l with
  | nil => simp [alGet, alSet, h, Ne.symm h]
  | cons hd rest ih =>
      obtain ⟨k₀, v₀⟩ := hd
      by_cases hk : k₀ = k
      · subst hk
        simp [alGet, alSet, Ne.symm h]
      · by_cases hk' : k₀ = k'
        · subst hk'
          simp [alGet, alSet, hk, h]
        · simp [alGet, alSet, hk, hk', ih]

lemma mtLookup_initState (st : CtrlState) (s d : Dpid) (mac : Mac) :
    mtLookup (if (alGet st s).isNone then alSet st s [] else st) d mac =
      mtLookup st d mac := by
  by_cases h : (alGet st s).isNone
  · rw [if_pos h]
    by_cases hd : d = s
    · subst hd
      rw [Option.isNone_iff_eq_none] at h
      simp [mtLookup, alGet_alSet_self, h, alGet]
    · simp [mtLookup, alGet_alSet_ne _ _ hd]
  · rw [if_neg h]

/-- On LLDP and IPv6 frames the handler sends nothing and no learned
(switch, MAC) entry changes. -/
lemma packetIn_dropped (st : CtrlState) (ev : PacketInEvent)
    (h : ev.eth.ethertype = ETH_TYPE_LLDP ∨ ev.eth.ethertype = ETH_TYPE_IPV6) :
    (packetInHandler st ev).msgs = [] ∧
      ∀ d mac, mtLookup (packetInHandler st ev).state d mac =
        mtLookup st d mac := by
  rcases h with h | h
  · unfold packetInHandler
    rw [if_pos h]
    exact ⟨rfl, fun d mac => mtLookup_initState st ev.dpid d mac⟩
  · unfold packetInHandler
    have hl : ev.eth.ethertype ≠ ETH_TYPE_LLDP := by
      rw [h]; decide
    rw [if_neg hl, if_pos h]
    exact ⟨rfl, fun d mac => mtLookup_initState st ev.dpid d mac⟩

/-! ## Claim C1 -/

/-- Claim C1 counterexample: construction does not fail for `k = 0` or for
`k = -2` — `build` checks only evenness (`0 % 2 == 0` and `-2 % 2 == 0` in
Python), returning an empty topology for `k = 0` and a single unconnected
core switch (`(-2 // 2) ** 2 == 1`) for `k = -2`, so `InvalidRadius` is not
produced at `k = 0` and `k = -2` as the claim states. -/
theorem c1_counterexample :
    build 0 = Except.ok ⟨[], []⟩ ∧
      build (-2) = Except.ok ⟨[Node.core 0], []⟩ :=
  ⟨rfl, rfl⟩

/-- Claim C1 (amended): constructing the topology via `build(k)` fails (with
the generic even-number error) exactly when `k` is odd; every even `k` —
positive or not, including `k = 0` and `k = -2` — is accepted. -/
theorem c1_amended (k : Int) :
    (∃ t, build k = Except.ok t) ↔ k % 2 = 0 := by
  unfold build
  by_cases h : k % 2 = 0
  · simp [h]
  · simp [h]

/-! ## Claims C7, C9: frames dropped by the ether-type filter -/

/-- Claim C7: a frame whose ether-type is LLDP (`0x88cc`) or IPv6 neighbor
discovery (carried in IPv6 frames, ether-type `0x86dd`) leaves every
switch's learned MAC entries unchanged, installs no flow rule and emits no
packet-out. -/
theorem c7_lldp_ipv6_nd_dropped (st : CtrlState) (ev : PacketInEvent)
    (h : ev.eth.ethertype = ETH_TYPE_LLDP ∨
      ev.eth.ethertype = ETH_TYPE_IPV6) :
    (packetInHandler st ev).msgs = [] ∧
      ∀ d mac, mtLookup (packetInHandler st ev).state d mac =
        mtLookup st d mac :=
  packetIn_dropped st ev h

theorem c7_witness :
    ((⟨1, 2, 0xffffffff, [1, 2, 3], 60, 60, ⟨10, 11, 0x88cc⟩⟩ :
        PacketInEvent).eth.ethertype = ETH_TYPE_LLDP ∨
      (⟨1, 2, 0xffffffff, [1, 2, 3], 60, 60, ⟨10, 11, 0x88cc⟩⟩ :
        PacketInEvent).eth.ethertype = ETH_TYPE_IPV6) ∧
    (packetInHandler []
        ⟨1, 2, 0xffffffff, [1, 2, 3], 60, 60, ⟨10, 11, 0x88cc⟩⟩).msgs = [] ∧
    mtLookup (packetInHandler []
        ⟨1, 2, 0xffffffff, [1, 2, 3], 60, 60, ⟨10, 11, 0x88cc⟩⟩).state 1 10 =
      mtLookup [] 1 10 :=
  ⟨Or.inl rfl,
   (c7_lldp_ipv6_nd_dropped [] _ (Or.inl rfl)).1,
   (c7_lldp_ipv6_nd_dropped [] _ (Or.inl rfl)).2 1 10⟩

/-- Claim C9: every frame with ether-type IPv6 (`0x86dd`) — any IPv6
traffic, not only neighbor discovery — is returned on before learning: no
MAC entry is written, no flow rule installed, no packet-out emitted. -/
theorem c9_ipv6_dropped (st : CtrlState) (ev : PacketInEvent)
    (h : ev.eth.ethertype = 0x86dd) :
    (packetInHandler st ev).msgs = [] ∧
      ∀ d mac, mtLookup (packetInHandler st ev).state d mac =
        mtLookup st d mac :=
  packetIn_dropped st ev (Or.inr h)

theorem c9_witness :
    ((⟨7, 3, 5, [0, 1], 42, 42, ⟨20, 21, 0x86dd⟩⟩ :
        PacketInEvent).eth.ethertype = 0x86dd) ∧
    (packetInHandler [(7, [(9, 4)])]
        ⟨7, 3, 5, [0, 1], 42, 42, ⟨20, 21, 0x86dd⟩⟩).msgs = [] ∧
    mtLookup (packetInHandler [(7, [(9, 4)])]
        ⟨7, 3, 5, [0, 1], 42, 42, ⟨20, 21, 0x86dd⟩⟩).state 7 9 =
      mtLookup [(7, [(9, 4)])] 7 9 :=
  ⟨rfl,
   (c9_ipv6_dropped [(7, [(9, 4)])] _ rfl).1,
   (c9_ipv6_dropped [(7, [(9, 4)])] _ rfl).2 7 9⟩

/-! ## Claim C8: switch-features handling -/

/-- Claim C8: on a switch-features event the controller first sends a
delete of all existing flows (wildcard match) and then exactly one
table-miss rule: priority 0, wildcard match, single action outputting to
the controller with `OFPCML_NO_BUFFER` (no buffering limit), and nothing
else. -/
theorem c8_switch_features (d : Dpid) :
    switchFeaturesHandler d =
      [OFMsg.flowModDelete d wildcardMatch,
       OFMsg.flowModAdd d none 0 wildcardMatch
         [⟨OFPP_CONTROLLER, some OFPCML_NO_BUFFER⟩] 0] := rfl

/-! ## Claim C10: the `core_switch_count` accessor -/

/-- Claim C10: evaluating the `core_switch_count` property never produces a
value, for any recursion budget — its body is an unguarded call to itself,
so no caller can obtain the core switch count through it. -/
theorem c10_core_switch_count_diverges (fuel : Nat) :
    core_switch_count fuel = none := by
  induction fuel with
  | zero => rfl
  | succ n ih => simpa [core_switch_count] using ih

/-! ## Claim C6: learning-switch scenario -/

lemma c6_aux (st st1 : CtrlState) (T : MacTable)
    (s p1 p2 bid1 bid2 ml1 tl1 ml2 tl2 : Nat)
    (d1 d2 : List Nat) (A B : Mac) (et1 et2 : Nat)
    (hinit : (if (alGet st s).isNone then alSet st s [] else st) = st1)
    (hT : alGet st1 s = some T)
    (_hTA : alGet T A = none) (hTB : alGet T B = none)
    (hAB : A ≠ B) (hp1 : p1 ≠ OFPP_FLOOD)
    (h1l : et1 ≠ ETH_TYPE_LLDP) (h1i : et1 ≠ ETH_TYPE_IPV6)
    (h2l : et2 ≠ ETH_TYPE_LLDP) (h2i : et2 ≠ ETH_TYPE_IPV6) :
    packetInHandler st ⟨s, p1, bid1, d1, ml1, tl1, ⟨B, A, et1⟩⟩ =
      ⟨alSet st1 s (alSet T A p1),
       [.packetOut s bid1 p1 [⟨OFPP_FLOOD, none⟩]
         (if bid1 = OFP_NO_BUFFER then some d1 else none)]⟩ ∧
    packetInHandler (alSet st1 s (alSet T A p1))
        ⟨s, p2, bid2, d2, ml2, tl2, ⟨A, B, et2⟩⟩ =
      ⟨alSet (alSet st1 s (alSet T A p1)) s (alSet (alSet T A p1) B p2),
       [.flowModAdd s none 1 ⟨some p2, some A, some B⟩ [⟨p1, none⟩] 300,
        .packetOut s bid2 p2 [⟨p1, none⟩]
         (if bid2 = OFP_NO_BUFFER then some d2 else none)]⟩ := by
  have hA1 : alGet (alSet T A p1) B = none := by
    rw [alGet_alSet_ne T p1 (Ne.symm hAB), hTB]
  have hA2 : alGet (alSet st1 s (alSet T A p1)) s = some (alSet T A p1) :=
    alGet_alSet_self st1 s (alSet T A p1)
  have hA3 : alGet (alSet (alSet T A p1) B p2) A = some p1 := by
    rw [alGet_alSet_ne (alSet T A p1) p2 hAB, alGet_alSet_self T A p1]
  have hbne : (p1 != OFPP_FLOOD) = true := by simpa [bne_iff_ne] using hp1
  constructor
  · simp only [packetInHandler]
    rw [if_neg h1l, if_neg h1i, hinit, hT]
    simp only [Option.getD_some, hA1]
    simp [addFlow, OFPP_FLOOD]
  · simp only [packetInHandler]
    rw [if_neg h2l, if_neg h2i]
    simp only [hA2, Option.isNone_some, Bool.false_eq_true, if_false,
      Option.getD_some, hA3, hbne, if_true, addFlow]
    simp

/-- Claim C6: on a switch `s` with both MACs unlearned, a first frame
`A -> B` floods (packet-out with `OFPP_FLOOD`) and installs no flow rule;
the reverse frame `B -> A` then resolves the learned port of `A`, installs
a unicast flow (match on ingress port, source and destination MAC, priority
1 above table-miss) and emits a non-flood packet-out. -/
theorem c6_learning_scenario (st : CtrlState)
    (s p1 p2 bid1 bid2 ml1 tl1 ml2 tl2 : Nat)
    (d1 d2 : List Nat) (A B : Mac) (et1 et2 : Nat)
    (hA : mtLookup st s A = none) (hB : mtLookup st s B = none)
    (hAB : A ≠ B) (hp1 : p1 ≠ OFPP_FLOOD)
    (h1l : et1 ≠ ETH_TYPE_LLDP) (h1i : et1 ≠ ETH_TYPE_IPV6)
    (h2l : et2 ≠ ETH_TYPE_LLDP) (h2i : et2 ≠ ETH_TYPE_IPV6) :
    (packetInHandler st ⟨s, p1, bid1, d1, ml1, tl1, ⟨B, A, et1⟩⟩).msgs =
      [.packetOut s bid1 p1 [⟨OFPP_FLOOD, none⟩]
        (if bid1 = OFP_NO_BUFFER then some d1 else none)] ∧
    (packetInHandler
        (packetInHandler st ⟨s, p1, bid1, d1, ml1, tl1, ⟨B, A, et1⟩⟩).state
        ⟨s, p2, bid2, d2, ml2, tl2, ⟨A, B, et2⟩⟩).msgs =
      [.flowModAdd s none 1 ⟨some p2, some A, some B⟩ [⟨p1, none⟩] 300,
       .packetOut s bid2 p2 [⟨p1, none⟩]
        (if bid2 = OFP_NO_BUFFER then some d2 else none)] := by
  rcases hcase : alGet st s with _ | T
  · have hinit : (if (alGet st s).isNone then alSet st s [] else st) =
        alSet st s [] := by rw [hcase]; rfl
    have hT : alGet (alSet st s []) s = some [] := alGet_alSet_self st s []
    have h := c6_aux st (alSet st s []) [] s p1 p2 bid1 bid2 ml1 tl1 ml2 tl2
      d1 d2 A B et1 et2 hinit hT rfl rfl hAB hp1 h1l h1i h2l h2i
    rw [h.1]
    exact ⟨rfl, by rw [h.2]⟩
  · have hTA : alGet T A = none := by
      simpa [mtLookup, hcase] using hA
    have hTB : alGet T B = none := by
      simpa [mtLookup, hcase] using hB
    have hinit : (if (alGet st s).isNone then alSet st s [] else st) = st := by
      rw [hcase]; rfl
    have hT : alGet st s = some T := hcase
    have h := c6_aux st st T s p1 p2 bid1 bid2 ml1 tl1 ml2 tl2
      d1 d2 A B et1 et2 hinit hT hTA hTB hAB hp1 h1l h1i h2l h2i
    rw [h.1]
    exact ⟨rfl, by rw [h.2]⟩

theorem c6_witness :
    mtLookup [] 1 10 = none ∧ mtLookup [] 1 20 = none ∧ (10 : Nat) ≠ 20 ∧
    (3 : Nat) ≠ OFPP_FLOOD ∧
    (packetInHandler []
        ⟨1, 3, 0xffffffff, [5], 60, 60, ⟨20, 10, 0x800⟩⟩).msgs =
      [.packetOut 1 0xffffffff 3 [⟨OFPP_FLOOD, none⟩] (some [5])] ∧
    (packetInHandler
        (packetInHandler []
          ⟨1, 3, 0xffffffff, [5], 60, 60, ⟨20, 10, 0x800⟩⟩).state
        ⟨1, 4, 0xffffffff, [6], 60, 60, ⟨10, 20, 0x800⟩⟩).msgs =
      [.flowModAdd 1 none 1 ⟨some 4, some 10, some 20⟩ [⟨3, none⟩] 300,
       .packetOut 1 0xffffffff 4 [⟨3, none⟩] (some [6])] := by
  have h := c6_learning_scenario [] 1 3 4 0xffffffff 0xffffffff 60 60 60 60
    [5] [6] 10 20 0x800 0x800 rfl rfl (by decide) (by decide)
    (by decide) (by decide) (by decide) (by decide)
  refine ⟨rfl, rfl, by decide, by decide, ?_, ?_⟩
  · simpa using h.1
  · simpa using h.2

/-! ## Claim C2: distribution -/

lemma sum_range_ite (q r n : Nat) :
    ((List.range n).map (fun i => q + if i < r then 1 else 0)).sum =
      n * q + min r n := by
  induction n with
  | zero => simp
  | succ n ih =>
      rw [List.range_succ, List.map_append, List.sum_append, ih]
      by_cases h : n < r
      · have h1 : min r n = n := by omega
        have h2 : min r (n + 1) = n + 1 := by omega
        simp only [if_pos h, List.map_cons, List.map_nil, List.sum_cons,
          List.sum_nil, h1, h2, Nat.succ_mul]
        omega
      · have h1 : min r n = r := by omega
        have h2 : min r (n + 1) = r := by omega
        simp only [if_neg h, List.map_cons, List.map_nil, List.sum_cons,
          List.sum_nil, h1, h2, Nat.succ_mul]
        omega

lemma uniformDistribute_length (total bins : Nat) :
    (uniformDistribute total bins).length = bins := by
  simp [uniformDistribute]

lemma uniformDistribute_sum (total bins : Nat) (h : 0 < bins) :
    (uniformDistribute total bins).sum = total := by
  unfold uniformDistribute
  rw [sum_range_ite]
  have hlt : total % bins < bins := Nat.mod_lt _ h
  have : min (total % bins) bins = total % bins := by omega
  rw [this]
  exact Nat.div_add_mod total bins

lemma uniformDistribute_balanced (total bins : Nat) :
    ∀ x ∈ uniformDistribute total bins, ∀ y ∈ uniformDistribute total bins,
      x ≤ y + 1 := by
  intro x hx y hy
  simp only [uniformDistribute, List.mem_map, List.mem_range] at hx hy
  obtain ⟨i, _, rfl⟩ := hx
  obtain ⟨j, _, rfl⟩ := hy
  split_ifs <;> omega

lemma addUnit_length (l : List Nat) (i : Nat) :
    (addUnit l i).length = l.length := by
  simp [addUnit]

lemma addUnit_sum (l : List Nat) (i : Nat) (h : i < l.length) :
    (addUnit l i).sum = l.sum + 1 := by
  induction l generalizing i with
  | nil => simp at h
  | cons a l ih =>
      cases i with
      | zero => simp [addUnit, List.getD_cons_zero]; omega
      | succ i =>
          have hi : i < l.length := by simpa using h
          have := ih i hi
          simp only [addUnit, List.getD_cons_succ, List.set] at this ⊢
          simp only [List.sum_cons]
          omega

lemma foldl_addUnit_length (choice : Nat → Nat) (bins : Nat) (l : List Nat)
    (acc : List Nat) :
    (l.foldl (fun a u => addUnit a (choice u % bins)) acc).length =
      acc.length := by
  induction l generalizing acc with
  | nil => rfl
  | cons u l ih => rw [List.foldl_cons, ih, addUnit_length]

lemma foldl_addUnit_sum (choice : Nat → Nat) (bins : Nat) (hb : 0 < bins)
    (l : List Nat) (acc : List Nat) (hacc : acc.length = bins) :
    (l.foldl (fun a u => addUnit a (choice u % bins)) acc).sum =
      acc.sum + l.length := by
  induction l generalizing acc with
  | nil => simp
  | cons u l ih =>
      rw [List.foldl_cons, ih _ (by rw [addUnit_length]; exact hacc),
        addUnit_sum _ _ (by rw [hacc]; exact Nat.mod_lt _ hb)]
      simp only [List.length_cons]
      omega

lemma randomDistribute_length (total bins : Nat) (choice : Nat → Nat) :
    (randomDistribute total bins choice).length = bins := by
  unfold randomDistribute
  rw [foldl_addUnit_length, List.length_replicate]

lemma randomDistribute_sum (total bins : Nat) (choice : Nat → Nat)
    (h : 0 < bins) : (randomDistribute total bins choice).sum = total := by
  unfold randomDistribute
  rw [foldl_addUnit_sum choice bins h _ _ (List.length_replicate _ _)]
  simp

/-- Claim C2: for `total >= 0` and `bins > 0`, under either policy,
`distribute` returns exactly `bins` non-negative integers summing to
`total`; under UNIFORM any two entries differ by at most 1
(`max - min <= 1`); for `bins <= 0` or `total < 0` it fails with
`InvalidDistributionRequest`. -/
theorem c2_distribute (total bins : Int) (policy : Policy)
    (choice : Nat → Nat) :
    (0 ≤ total → 0 < bins →
      ∃ r, distribute total bins policy choice = .ok r ∧
        (r.length : Int) = bins ∧ (r.sum : Int) = total ∧
        (∀ x ∈ r, 0 ≤ x) ∧
        (policy = .uniform → ∀ x ∈ r, ∀ y ∈ r, x ≤ y + 1)) ∧
    ((bins ≤ 0 ∨ total < 0) →
      distribute total bins policy choice =
        .error "InvalidDistributionRequest") := by
  constructor
  · intro htot hbins
    have hnotfail : ¬(bins ≤ 0 ∨ total < 0) := by omega
    have hb : 0 < bins.toNat := by omega
    cases policy with
    | uniform =>
        refine ⟨uniformDistribute total.toNat bins.toNat, ?_, ?_, ?_, ?_, ?_⟩
        · simp [distribute, hnotfail]
        · rw [uniformDistribute_length]; omega
        · rw [uniformDistribute_sum _ _ hb]; omega
        · intro x _; exact Nat.zero_le x
        · intro _; exact uniformDistribute_balanced _ _
    | random =>
        refine ⟨randomDistribute total.toNat bins.toNat choice, ?_, ?_, ?_, ?_, ?_⟩
        · simp [distribute, hnotfail]
        · rw [randomDistribute_length]; omega
        · rw [randomDistribute_sum _ _ _ hb]; omega
        · intro x _; exact Nat.zero_le x
        · intro h; cases h
  · intro h
    simp [distribute, h]

theorem c2_witness :
    (0 : Int) ≤ 5 ∧ (0 : Int) < 4 ∧
    ∃ r, distribute 5 4 .uniform (fun u => u) = .ok r ∧
      (r.length : Int) = 4 ∧ (r.sum : Int) = 5 ∧
      (∀ x ∈ r, 0 ≤ x) ∧
      (Policy.uniform = .uniform → ∀ x ∈ r, ∀ y ∈ r, x ≤ y + 1) :=
  ⟨by decide, by decide,
   (c2_distribute 5 4 .uniform (fun u => u)).1 (by decide) (by decide)⟩

/-! ## Index arithmetic -/

lemma encLt {m i j : Nat} (hi : i < m) (hj : j < m) : i * m + j < m * m := by
  have h1 : i * m + j < (i + 1) * m := by
    rw [Nat.succ_mul]; omega
  have h2 : (i + 1) * m ≤ m * m := Nat.mul_le_mul_right m (by omega)
  omega

lemma encDiv {m p i : Nat} (hi : i < m) : (p * m + i) / m = p := by
  have hm : 0 < m := by omega
  rw [Nat.mul_comm p m, Nat.mul_add_div hm, Nat.div_eq_of_lt hi]
  omega

lemma encInj {m p i p' i' : Nat} (hi : i < m) (hi' : i' < m) :
    p * m + i = p' * m + i' ↔ p = p' ∧ i = i' := by
  constructor
  · intro h
    have h1 : (p * m + i) / m = (p' * m + i') / m := by rw [h]
    rw [encDiv hi, encDiv hi'] at h1
    subst h1
    exact ⟨rfl, by omega⟩
  · rintro ⟨rfl, rfl⟩; rfl

/-! ## Range and list helpers -/

lemma getD_range_map {α : Type} (f : Nat → α) {n i : Nat} (h : i < n)
    (d : α) : ((List.range n).map f).getD i d = f i := by
  rw [List.getD_eq_getElem?_getD, List.getElem?_map, List.getElem?_range h]
  rfl

lemma flatMap_range_congr {α : Type} {f g : Nat → List α} {n : Nat}
    (h : ∀ i, i < n → f i = g i) :
    (List.range n).flatMap f = (List.range n).flatMap g := by
  induction n with
  | zero => rfl
  | succ n ih =>
      rw [List.range_succ, List.flatMap_append, List.flatMap_append,
        ih (fun i hi => h i (by omega))]
      simp [h n (by omega)]

/-! ## `build` at even radix -/

lemma halfK_two_mul (m : Nat) : halfK (2 * (m : Int)) = m := by
  unfold halfK
  rw [Int.mul_fdiv_cancel_left _ (by norm_num), Int.toNat_natCast]

lemma coreSwitchCnt_two_mul (m : Nat) : coreSwitchCnt (2 * (m : Int)) = m * m := by
  unfold coreSwitchCnt
  rw [Int.mul_fdiv_cancel_left _ (by norm_num),
    show ((m : Int)) ^ 2 = ((m * m : Nat) : Int) by push_cast; ring,
    Int.toNat_natCast]

lemma initCoreSwitches_two_mul (m : Nat) :
    initCoreSwitches (2 * (m : Int)) = (List.range (m * m)).map Node.core := by
  rw [initCoreSwitches, coreSwitchCnt_two_mul]

lemma buildPod_even (m p : Nat) :
    buildPod (2 * (m : Int)) (initCoreSwitches (2 * (m : Int))) p =
      (podNodesN m p, podLinksN m p) := by
  have hedges : initEdgeSwitches (2 * (m : Int)) p =
      (List.range m).map (fun i => Node.edge (p * m + i)) := by
    rw [initEdgeSwitches, halfK_two_mul]
  have haggrs : initAggrSwitches (2 * (m : Int)) p =
      (List.range m).map (fun i => Node.aggr (p * m + i)) := by
    rw [initAggrSwitches, halfK_two_mul]
  have hhosts : initHosts (2 * (m : Int)) p =
      (List.range (m * m)).map (fun i => Node.host (p * (m * m) + i)) := by
    rw [initHosts, halfK_two_mul]
  have hce : connectHostsToEdge (2 * (m : Int))
      (initEdgeSwitches (2 * (m : Int)) p) (initHosts (2 * (m : Int)) p) =
      hostEdgeN m p := by
    rw [connectHostsToEdge, hedges, hhosts, halfK_two_mul, hostEdgeN]
    rw [List.length_map, List.length_range]
    apply flatMap_range_congr
    intro i hi
    apply List.map_congr_left
    intro j hj
    rw [List.mem_range] at hj
    rw [getD_range_map _ (encLt hi hj), getD_range_map _ hi]
  have hae : connectAggrToEdge (initEdgeSwitches (2 * (m : Int)) p)
      (initAggrSwitches (2 * (m : Int)) p) = edgeAggrN m p := by
    rw [connectAggrToEdge, hedges, haggrs, edgeAggrN, List.flatMap_map]
    apply flatMap_range_congr
    intro i _
    rw [List.map_map]
    rfl
  have hac : connectAggrToCore (2 * (m : Int))
      (initCoreSwitches (2 * (m : Int))) (initAggrSwitches (2 * (m : Int)) p) =
      aggrCoreN m p := by
    rw [connectAggrToCore, haggrs, initCoreSwitches_two_mul, halfK_two_mul,
      aggrCoreN]
    rw [List.length_map, List.length_range]
    apply flatMap_range_congr
    intro i hi
    apply List.map_congr_left
    intro j hj
    rw [List.mem_range] at hj
    rw [getD_range_map _ (encLt hi hj), getD_range_map _ hi]
  rw [buildPod, hce, hae, hac, hedges, haggrs, hhosts]
  rfl

/-- `build` at even radix `2*m` succeeds with the normal-form topology. -/
lemma build_even (m : Nat) :
    build (2 * (m : Int)) = Except.ok (topoN m) := by
  have hmod : (2 * (m : Int)) % 2 = 0 := Int.mul_emod_right 2 m
  unfold build
  rw [if_neg (by simp [hmod])]
  have htn : (2 * (m : Int)).toNat = 2 * m := by
    rw [show (2 * (m : Int)) = ((2 * m : Nat) : Int) by push_cast; ring,
      Int.toNat_natCast]
  rw [htn]
  simp only []
  have hpods : (List.range (2 * m)).map
      (buildPod (2 * (m : Int)) (initCoreSwitches (2 * (m : Int)))) =
      (List.range (2 * m)).map (fun p => (podNodesN m p, podLinksN m p)) :=
    List.map_congr_left (fun p _ => buildPod_even m p)
  show Except.ok
      { nodes := initCoreSwitches (2 * (m : Int)) ++
          ((List.range (2 * m)).map
            (buildPod (2 * (m : Int)) (initCoreSwitches (2 * (m : Int))))).flatMap
            Prod.fst,
        links := ((List.range (2 * m)).map
            (buildPod (2 * (m : Int)) (initCoreSwitches (2 * (m : Int))))).flatMap
            Prod.snd } = Except.ok (topoN m)
  rw [hpods, initCoreSwitches_two_mul]
  unfold topoN
  rw [List.flatMap_map, List.flatMap_map]

/-- Decomposition of an even `k >= 2` into `2*m` with `m >= 1`. -/
lemma even_k_decomp (k : Int) (hk : k % 2 = 0) (hk2 : 2 ≤ k) :
    ∃ m : Nat, 1 ≤ m ∧ k = 2 * (m : Int) := by
  obtain ⟨c, rfl⟩ := Int.dvd_of_emod_eq_zero hk
  have hc : 1 ≤ c := by omega
  refine ⟨c.toNat, by omega, ?_⟩
  rw [Int.toNat_of_nonneg (by omega)]

lemma countP_all_false {α : Type} {p : α → Bool} (l : List α)
    (h : ∀ a, p a = false) : l.countP p = 0 :=
  List.countP_eq_zero.2 (fun a _ => by simp [h a])

lemma countP_all_true {α : Type} {p : α → Bool} (l : List α)
    (h : ∀ a, p a = true) : l.countP p = l.length := by
  have : p = fun _ => true := funext h
  rw [this, List.countP_true]

lemma sum_map_comp_const {α : Type} (F : α → Nat) (l : List α) (c : Nat)
    (h : ∀ a ∈ l, F a = c) : (l.map F).sum = l.length * c := by
  induction l with
  | nil => simp
  | cons a l ih =>
      rw [List.map_cons, List.sum_cons, h a (by simp),
        ih (fun b hb => h b (by simp [hb])), List.length_cons, Nat.succ_mul]
      omega

lemma podNodesN_count (m p : Nat) :
    (podNodesN m p).countP isCore = 0 ∧
    (podNodesN m p).countP isAggr = m ∧
    (podNodesN m p).countP isEdge = m ∧
    (podNodesN m p).countP isHost = m * m := by
  unfold podNodesN
  refine ⟨?_, ?_, ?_, ?_⟩ <;>
    · rw [List.countP_append, List.countP_append, List.countP_map,
        List.countP_map, List.countP_map]
      simp only [Function.comp_def, isCore, isAggr, isEdge, isHost]
      simp [List.countP_false, List.countP_true]

lemma topoN_count_core (m : Nat) : (topoN m).nodes.countP isCore = m * m := by
  unfold topoN
  rw [List.countP_append, List.countP_map, List.countP_flatMap]
  simp only [Function.comp_def, isCore]
  rw [sum_map_comp_const _ _ 0 (fun p _ => (podNodesN_count m p).1)]
  simp [List.countP_true]

lemma topoN_count_aggr (m : Nat) :
    (topoN m).nodes.countP isAggr = 2 * m * m := by
  unfold topoN
  rw [List.countP_append, List.countP_map, List.countP_flatMap]
  simp only [Function.comp_def, isAggr]
  rw [sum_map_comp_const _ _ m (fun p _ => (podNodesN_count m p).2.1)]
  simp [List.countP_false, Nat.mul_assoc]

lemma topoN_count_edge (m : Nat) :
    (topoN m).nodes.countP isEdge = 2 * m * m := by
  unfold topoN
  rw [List.countP_append, List.countP_map, List.countP_flatMap]
  simp only [Function.comp_def, isEdge]
  rw [sum_map_comp_const _ _ m (fun p _ => (podNodesN_count m p).2.2.1)]
  simp [List.countP_false, Nat.mul_assoc]

lemma topoN_count_host (m : Nat) :
    (topoN m).nodes.countP isHost = 2 * m * (m * m) := by
  unfold topoN
  rw [List.countP_append, List.countP_map, List.countP_flatMap]
  simp only [Function.comp_def, isHost]
  rw [sum_map_comp_const _ _ (m * m) (fun p _ => (podNodesN_count m p).2.2.2)]
  simp [List.countP_false, Nat.mul_assoc]

/-- Claim C3: for every even `k >= 2` the built topology has `(k/2)^2` core
switches, `k*(k/2)` aggregation switches, `k*(k/2)` edge switches, and
`k^3/4` hosts. -/
theorem c3_counts (k : Int) (hk : k % 2 = 0) (hk2 : 2 ≤ k) (t : Topology)
    (ht : build k = Except.ok t) :
    (t.nodes.countP isCore : Int) = (k / 2) ^ 2 ∧
    (t.nodes.countP isAggr : Int) = k * (k / 2) ∧
    (t.nodes.countP isEdge : Int) = k * (k / 2) ∧
    (t.nodes.countP isHost : Int) = k ^ 3 / 4 := by
  obtain ⟨m, hm, rfl⟩ := even_k_decomp k hk hk2
  rw [build_even] at ht
  injection ht with ht
  subst ht
  rw [topoN_count_core, topoN_count_aggr, topoN_count_edge, topoN_count_host]
  have hdiv : (2 * (m : Int)) / 2 = (m : Int) :=
    Int.mul_ediv_cancel_left _ (by norm_num)
  refine ⟨?_, ?_, ?_, ?_⟩
  · rw [hdiv]; push_cast; ring
  · rw [hdiv]; push_cast; ring
  · rw [hdiv]; push_cast; ring
  · have h4 : ((2 * (m : Int)) ^ 3) = 4 * (2 * (m : Int) ^ 3) := by ring
    rw [h4, Int.mul_ediv_cancel_left _ (by norm_num)]
    push_cast; ring

theorem c3_witness :
    (4 : Int) % 2 = 0 ∧ (2 : Int) ≤ 4 ∧ build 4 = Except.ok (topoN 2) ∧
    ((topoN 2).nodes.countP isCore : Int) = ((4 : Int) / 2) ^ 2 ∧
    ((topoN 2).nodes.countP isAggr : Int) = 4 * ((4 : Int) / 2) ∧
    ((topoN 2).nodes.countP isEdge : Int) = 4 * ((4 : Int) / 2) ∧
    ((topoN 2).nodes.countP isHost : Int) = (4 : Int) ^ 3 / 4 := by
  have hbuild : build 4 = Except.ok (topoN 2) := by
    rw [show (4 : Int) = 2 * ((2 : Nat) : Int) by norm_num]
    exact build_even 2
  have h := c3_counts 4 (by decide) (by decide) (topoN 2) hbuild
  exact ⟨by decide, by decide, hbuild, h.1, h.2.1, h.2.2.1, h.2.2.2⟩

/-! ## Claim C5 -/

/-- Claim C5: for every even `k >= 2` and every pod `p`, the aggregation
switch with pod-local index `i` is linked to exactly the core switches with
global indices in `[i*(k/2), (i+1)*(k/2))`; the right-hand side does not
mention `p`, so the mapping is identical in every pod. -/
theorem c5_aggr_core_pattern (k : Int) (hk : k % 2 = 0) (hk2 : 2 ≤ k)
    (t : Topology) (ht : build k = Except.ok t) :
    ∀ p, p < k.toNat → ∀ i, i < halfK k → ∀ c : Nat,
      (linked t (Node.aggr (p * halfK k + i)) (Node.core c) = true ↔
        (i * halfK k ≤ c ∧ c < (i + 1) * halfK k)) := by
  obtain ⟨m, hm, rfl⟩ := even_k_decomp k hk hk2
  rw [build_even] at ht
  injection ht with ht
  subst ht
  have hk2m : (2 * (m : Int)).toNat = 2 * m := by
    rw [show (2 * (m : Int)) = ((2 * m : Nat) : Int) by push_cast; ring,
      Int.toNat_natCast]
  rw [hk2m, halfK_two_mul]
  intro p hp i hi c
  constructor
  · intro h
    rw [linked, List.any_eq_true] at h
    obtain ⟨l, hl, hdec⟩ := h
    rw [decide_eq_true_eq] at hdec
    simp only [topoN] at hl
    rw [List.mem_flatMap] at hl
    obtain ⟨a, ha, hl⟩ := hl
    rw [List.mem_range] at ha
    rw [podLinksN, List.mem_append, List.mem_append] at hl
    rcases hl with (hl | hl) | hl
    · exfalso
      rw [hostEdgeN, List.mem_flatMap] at hl
      obtain ⟨i', _, hl⟩ := hl
      rw [List.mem_map] at hl
      obtain ⟨j', _, rfl⟩ := hl
      rcases hdec with h | h <;> simp [Prod.ext_iff] at h
    · exfalso
      rw [edgeAggrN, List.mem_flatMap] at hl
      obtain ⟨i', _, hl⟩ := hl
      rw [List.mem_map] at hl
      obtain ⟨j', _, rfl⟩ := hl
      rcases hdec with h | h <;> simp [Prod.ext_iff] at h
    · rw [aggrCoreN, List.mem_flatMap] at hl
      obtain ⟨i', hi', hl⟩ := hl
      rw [List.mem_range] at hi'
      rw [List.mem_map] at hl
      obtain ⟨j', hj', rfl⟩ := hl
      rw [List.mem_range] at hj'
      rcases hdec with h | h
      · rw [Prod.ext_iff] at h
        obtain ⟨h1, h2⟩ := h
        rw [Node.aggr.injEq] at h1
        rw [Node.core.injEq] at h2
        obtain ⟨rfl, rfl⟩ := (encInj hi' hi).1 h1
        rw [Nat.succ_mul]
        omega
      · exfalso
        simp [Prod.ext_iff] at h
  · rintro ⟨h1, h2⟩
    rw [linked, List.any_eq_true]
    refine ⟨(Node.aggr (p * m + i), Node.core (i * m + (c - i * m))), ?_, ?_⟩
    · simp only [topoN]
      rw [List.mem_flatMap]
      refine ⟨p, List.mem_range.2 hp, ?_⟩
      rw [podLinksN, List.mem_append, List.mem_append]
      right
      rw [aggrCoreN, List.mem_flatMap]
      refine ⟨i, List.mem_range.2 hi, ?_⟩
      rw [List.mem_map]
      refine ⟨c - i * m, List.mem_range.2 ?_, rfl⟩
      rw [Nat.succ_mul] at h2
      omega
    · rw [decide_eq_true_eq]
      left
      have hc : i * m + (c - i * m) = c := by omega
      rw [hc]

theorem c5_witness :
    (4 : Int) % 2 = 0 ∧ (2 : Int) ≤ 4 ∧ build 4 = Except.ok (topoN 2) ∧
    1 < (4 : Int).toNat ∧ 1 < halfK 4 ∧
    (linked (topoN 2) (Node.aggr (1 * halfK 4 + 1)) (Node.core 3) = true ↔
      (1 * halfK 4 ≤ 3 ∧ 3 < (1 + 1) * halfK 4)) := by
  have hbuild : build 4 = Except.ok (topoN 2) := by
    rw [show (4 : Int) = 2 * ((2 : Nat) : Int) by norm_num]
    exact build_even 2
  exact ⟨by decide, by decide, hbuild, by decide, by decide,
    c5_aggr_core_pattern 4 (by decide) (by decide) (topoN 2) hbuild
      1 (by decide) 1 (by decide) 3⟩

/-! ## Claim C4: counting machinery -/

lemma countP_range_eq_zero {p : Nat → Bool} {n : Nat}
    (h : ∀ i, i < n → p i = false) : (List.range n).countP p = 0 :=
  List.countP_eq_zero.2 (fun a ha => by
    rw [h a (List.mem_range.1 ha)]; exact Bool.false_ne_true)

lemma countP_range_eq_one {p : Nat → Bool} {n i₀ : Nat} (hi : i₀ < n)
    (hp : p i₀ = true) (h : ∀ i, i < n → p i = true → i = i₀) :
    (List.range n).countP p = 1 := by
  induction n with
  | zero => omega
  | succ n ih =>
      rw [List.range_succ, List.countP_append]
      by_cases hcase : i₀ = n
      · subst hcase
        rw [countP_range_eq_zero (fun i hi' => by
          cases hb : p i with
          | false => rfl
          | true => exact absurd (h i (by omega) hb) (by omega))]
        simp [List.countP_cons, hp]
      · have hpn : p n = false := by
          cases hb : p n with
          | false => rfl
          | true => exact absurd (h n (by omega) hb) (fun he => hcase he.symm)
        rw [ih (by omega) (fun i hi' hp' => h i (by omega) hp')]
        simp [List.countP_cons, hpn]

lemma countP_range_full {p : Nat → Bool} {n : Nat}
    (h : ∀ i, i < n → p i = true) : (List.range n).countP p = n := by
  rw [List.countP_eq_length.2 (fun a ha => h a (List.mem_range.1 ha)),
    List.length_range]

lemma sum_map_range_eq_zero {g : Nat → Nat} {n : Nat}
    (h : ∀ i, i < n → g i = 0) : ((List.range n).map g).sum = 0 := by
  rw [sum_map_comp_const g _ 0 (fun a ha => h a (List.mem_range.1 ha))]
  omega

lemma sum_map_range_single {g : Nat → Nat} {n p c : Nat} (hp : p < n)
    (hc : g p = c) (h : ∀ i, i < n → i ≠ p → g i = 0) :
    ((List.range n).map g).sum = c := by
  induction n with
  | zero => omega
  | succ n ih =>
      rw [List.range_succ, List.map_append, List.sum_append]
      by_cases hcase : p = n
      · subst hcase
        rw [sum_map_range_eq_zero (fun i hi' => h i (by omega) (by omega))]
        simp [hc]
      · rw [ih (by omega) (fun i hi' hne => h i (by omega) hne)]
        rw [show (List.map g [n]).sum = g n by simp,
          h n (by omega) (fun he => hcase he.symm)]
        omega

lemma sum_ite_eq_countP (p : Nat → Bool) (l : List Nat) :
    (l.map (fun i => if p i = true then 1 else 0)).sum = l.countP p := by
  induction l with
  | nil => rfl
  | cons a l ih =>
      rw [List.map_cons, List.sum_cons, ih, List.countP_cons]
      cases hb : p a
      · simp [hb]
      · simp [hb]
        omega

lemma countP_grid {α : Type} (F : α → Bool) (g : Nat → Nat → α)
    (n₁ n₂ : Nat) :
    ((List.range n₁).flatMap (fun i => (List.range n₂).map (g i))).countP F =
      ((List.range n₁).map
        (fun i => (List.range n₂).countP (fun j => F (g i j)))).sum := by
  rw [List.countP_flatMap]
  congr 1
  apply List.map_congr_left
  intro i _
  simp only [Function.comp_apply, List.countP_map, Function.comp_def]

/-! ## Membership shapes of the three per-pod link lists -/

lemma mem_hostEdgeN {m a : Nat} {l : Node × Node} (hl : l ∈ hostEdgeN m a) :
    ∃ i j, i < m ∧ j < m ∧
      l = (Node.host (a * (m * m) + (i * m + j)), Node.edge (a * m + i)) := by
  rw [hostEdgeN, List.mem_flatMap] at hl
  obtain ⟨i, hi, hl⟩ := hl
  rw [List.mem_map] at hl
  obtain ⟨j, hj, rfl⟩ := hl
  exact ⟨i, j, List.mem_range.1 hi, List.mem_range.1 hj, rfl⟩

lemma mem_edgeAggrN {m a : Nat} {l : Node × Node} (hl : l ∈ edgeAggrN m a) :
    ∃ i j, i < m ∧ j < m ∧
      l = (Node.edge (a * m + i), Node.aggr (a * m + j)) := by
  rw [edgeAggrN, List.mem_flatMap] at hl
  obtain ⟨i, hi, hl⟩ := hl
  rw [List.mem_map] at hl
  obtain ⟨j, hj, rfl⟩ := hl
  exact ⟨i, j, List.mem_range.1 hi, List.mem_range.1 hj, rfl⟩

lemma mem_aggrCoreN {m a : Nat} {l : Node × Node} (hl : l ∈ aggrCoreN m a) :
    ∃ i j, i < m ∧ j < m ∧
      l = (Node.aggr (a * m + i), Node.core (i * m + j)) := by
  rw [aggrCoreN, List.mem_flatMap] at hl
  obtain ⟨i, hi, hl⟩ := hl
  rw [List.mem_map] at hl
  obtain ⟨j, hj, rfl⟩ := hl
  exact ⟨i, j, List.mem_range.1 hi, List.mem_range.1 hj, rfl⟩

lemma countP_congr_fun {α : Type} {p q : α → Bool} (l : List α)
    (h : ∀ a, p a = q a) : l.countP p = l.countP q := by
  rw [funext h]

/-! ## Per-sublist link counts -/

lemma cnt_he_aggr (m a x : Nat) (q : Node → Bool) :
    (hostEdgeN m a).countP (endP (Node.aggr x) q) = 0 :=
  List.countP_eq_zero.2 (fun l hl => by
    obtain ⟨i, j, _, _, rfl⟩ := mem_hostEdgeN hl
    simp [endP])

lemma cnt_he_core (m a x : Nat) (q : Node → Bool) :
    (hostEdgeN m a).countP (endP (Node.core x) q) = 0 :=
  List.countP_eq_zero.2 (fun l hl => by
    obtain ⟨i, j, _, _, rfl⟩ := mem_hostEdgeN hl
    simp [endP])

lemma cnt_ea_host (m a x : Nat) (q : Node → Bool) :
    (edgeAggrN m a).countP (endP (Node.host x) q) = 0 :=
  List.countP_eq_zero.2 (fun l hl => by
    obtain ⟨i, j, _, _, rfl⟩ := mem_edgeAggrN hl
    simp [endP])

lemma cnt_ea_core (m a x : Nat) (q : Node → Bool) :
    (edgeAggrN m a).countP (endP (Node.core x) q) = 0 :=
  List.countP_eq_zero.2 (fun l hl => by
    obtain ⟨i, j, _, _, rfl⟩ := mem_edgeAggrN hl
    simp [endP])

lemma cnt_ac_host (m a x : Nat) (q : Node → Bool) :
    (aggrCoreN m a).countP (endP (Node.host x) q) = 0 :=
  List.countP_eq_zero.2 (fun l hl => by
    obtain ⟨i, j, _, _, rfl⟩ := mem_aggrCoreN hl
    simp [endP])

lemma cnt_ac_edge (m a x : Nat) (q : Node → Bool) :
    (aggrCoreN m a).countP (endP (Node.edge x) q) = 0 :=
  List.countP_eq_zero.2 (fun l hl => by
    obtain ⟨i, j, _, _, rfl⟩ := mem_aggrCoreN hl
    simp [endP])

lemma cnt_he_host (m a p i j : Nat) (hi : i < m) (hj : j < m)
    (q : Node → Bool) :
    (hostEdgeN m a).countP (endP (Node.host (p * (m * m) + (i * m + j))) q) =
      if a = p then (if q (Node.edge (p * m + i)) = true then 1 else 0)
      else 0 := by
  rw [hostEdgeN, countP_grid]
  by_cases hap : a = p
  · subst hap
    rw [if_pos rfl]
    apply sum_map_range_single hi
    · by_cases hq : q (Node.edge (a * m + i)) = true
      · rw [if_pos hq]
        apply countP_range_eq_one hj
        · simpa [endP] using hq
        · intro j' hj' hpj'
          simp [endP] at hpj'
          omega
      · have hq' : q (Node.edge (a * m + i)) = false := by
          cases hb : q (Node.edge (a * m + i)) with
          | true => exact absurd hb hq
          | false => rfl
        rw [if_neg hq]
        apply countP_range_eq_zero
        intro j' hj'
        simp [endP, hq']
    · intro i' hi' hne
      apply countP_range_eq_zero
      intro j' hj'
      have hne2 : a * (m * m) + (i' * m + j') ≠ a * (m * m) + (i * m + j) := by
        intro he
        have h1 : i' * m + j' = i * m + j := by omega
        exact hne ((encInj hj' hj).1 h1).1
      simp [endP, hne2]
  · rw [if_neg hap]
    apply sum_map_range_eq_zero
    intro i' hi'
    apply countP_range_eq_zero
    intro j' hj'
    have hne2 : a * (m * m) + (i' * m + j') ≠ p * (m * m) + (i * m + j) := by
      intro he
      exact hap ((encInj (encLt hi' hj') (encLt hi hj)).1 he).1
    simp [endP, hne2]

lemma cnt_he_edge (m a p i : Nat) (hi : i < m) (q : Node → Bool) :
    (hostEdgeN m a).countP (endP (Node.edge (p * m + i)) q) =
      if a = p then
        (List.range m).countP (fun j => q (Node.host (p * (m * m) + (i * m + j))))
      else 0 := by
  rw [hostEdgeN, countP_grid]
  by_cases hap : a = p
  · subst hap
    rw [if_pos rfl]
    apply sum_map_range_single hi
    · apply countP_congr_fun
      intro j'
      simp [endP]
    · intro i' hi' hne
      apply countP_range_eq_zero
      intro j' hj'
      have hne2 : a * m + i' ≠ a * m + i := by omega
      simp [endP, hne2]
  · rw [if_neg hap]
    apply sum_map_range_eq_zero
    intro i' hi'
    apply countP_range_eq_zero
    intro j' hj'
    have hne2 : a * m + i' ≠ p * m + i := by
      intro he
      exact hap ((encInj hi' hi).1 he).1
    simp [endP, hne2]

lemma cnt_ea_edge (m a p i : Nat) (hi : i < m) (q : Node → Bool) :
    (edgeAggrN m a).countP (endP (Node.edge (p * m + i)) q) =
      if a = p then (List.range m).countP (fun j => q (Node.aggr (p * m + j)))
      else 0 := by
  rw [edgeAggrN, countP_grid]
  by_cases hap : a = p
  · subst hap
    rw [if_pos rfl]
    apply sum_map_range_single hi
    · apply countP_congr_fun
      intro j'
      simp [endP]
    · intro i' hi' hne
      apply countP_range_eq_zero
      intro j' hj'
      have hne2 : a * m + i' ≠ a * m + i := by omega
      simp [endP, hne2]
  · rw [if_neg hap]
    apply sum_map_range_eq_zero
    intro i' hi'
    apply countP_range_eq_zero
    intro j' hj'
    have hne2 : a * m + i' ≠ p * m + i := by
      intro he
      exact hap ((encInj hi' hi).1 he).1
    simp [endP, hne2]

lemma cnt_ea_aggr (m a p x : Nat) (hx : x < m) (q : Node → Bool) :
    (edgeAggrN m a).countP (endP (Node.aggr (p * m + x)) q) =
      if a = p then (List.range m).countP (fun i => q (Node.edge (p * m + i)))
      else 0 := by
  rw [edgeAggrN, countP_grid]
  by_cases hap : a = p
  · subst hap
    rw [if_pos rfl, ← sum_ite_eq_countP (fun i => q (Node.edge (a * m + i)))]
    congr 1
    apply List.map_congr_left
    intro i' _
    by_cases hq : q (Node.edge (a * m + i')) = true
    · rw [if_pos hq]
      apply countP_range_eq_one hx
      · simpa [endP] using hq
      · intro j' hj' hpj'
        simp [endP] at hpj'
        omega
    · have hq' : q (Node.edge (a * m + i')) = false := by
        cases hb : q (Node.edge (a * m + i')) with
        | true => exact absurd hb hq
        | false => rfl
      rw [if_neg hq]
      apply countP_range_eq_zero
      intro j' hj'
      simp [endP, hq']
  · rw [if_neg hap]
    apply sum_map_range_eq_zero
    intro i' hi'
    apply countP_range_eq_zero
    intro j' hj'
    have hne2 : a * m + j' ≠ p * m + x := by
      intro he
      exact hap ((encInj hj' hx).1 he).1
    simp [endP, hne2]

lemma cnt_ac_aggr (m a p x : Nat) (hx : x < m) (q : Node → Bool) :
    (aggrCoreN m a).countP (endP (Node.aggr (p * m + x)) q) =
      if a = p then (List.range m).countP (fun j => q (Node.core (x * m + j)))
      else 0 := by
  rw [aggrCoreN, countP_grid]
  by_cases hap : a = p
  · subst hap
    rw [if_pos rfl]
    apply sum_map_range_single hx
    · apply countP_congr_fun
      intro j'
      simp [endP]
    · intro i' hi' hne
      apply countP_range_eq_zero
      intro j' hj'
      have hne2 : a * m + i' ≠ a * m + x := by omega
      simp [endP, hne2]
  · rw [if_neg hap]
    apply sum_map_range_eq_zero
    intro i' hi'
    apply countP_range_eq_zero
    intro j' hj'
    have hne2 : a * m + i' ≠ p * m + x := by
      intro he
      exact hap ((encInj hi' hx).1 he).1
    simp [endP, hne2]

lemma cnt_ac_core (m a i₀ j₀ : Nat) (hi₀ : i₀ < m) (hj₀ : j₀ < m)
    (q : Node → Bool) :
    (aggrCoreN m a).countP (endP (Node.core (i₀ * m + j₀)) q) =
      if q (Node.aggr (a * m + i₀)) = true then 1 else 0 := by
  rw [aggrCoreN, countP_grid]
  apply sum_map_range_single hi₀
  · by_cases hq : q (Node.aggr (a * m + i₀)) = true
    · rw [if_pos hq]
      apply countP_range_eq_one hj₀
      · simpa [endP] using hq
      · intro j' hj' hpj'
        simp [endP] at hpj'
        omega
    · have hq' : q (Node.aggr (a * m + i₀)) = false := by
        cases hb : q (Node.aggr (a * m + i₀)) with
        | true => exact absurd hb hq
        | false => rfl
      rw [if_neg hq]
      apply countP_range_eq_zero
      intro j' hj'
      simp [endP, hq']
  · intro i' hi' hne
    apply countP_range_eq_zero
    intro j' hj'
    have hne2 : i' * m + j' ≠ i₀ * m + j₀ := by
      intro he
      exact hne ((encInj hj' hj₀).1 he).1
    simp [endP, hne2]

/-! ## Degrees in the normal-form topology -/

lemma linkCnt_topoN (m : Nat) (v : Node) (q : Node → Bool) :
    linkCnt (topoN m) v q =
      ((List.range (2 * m)).map (fun a =>
        (hostEdgeN m a).countP (endP v q) +
          (edgeAggrN m a).countP (endP v q) +
          (aggrCoreN m a).countP (endP v q))).sum := by
  rw [linkCnt]
  simp only [topoN]
  rw [List.countP_flatMap]
  congr 1
  apply List.map_congr_left
  intro a _
  simp only [Function.comp_apply, podLinksN, List.countP_append]

lemma degree_eq_linkCnt (t : Topology) (v : Node) :
    degree t v = linkCnt t v (fun _ => true) := by
  rw [degree, linkCnt]
  apply countP_congr_fun
  intro l
  simp [incident, endP]

lemma linkCnt_topoN_host (m p i j : Nat) (hp : p < 2 * m) (hi : i < m)
    (hj : j < m) (q : Node → Bool) :
    linkCnt (topoN m) (Node.host (p * (m * m) + (i * m + j))) q =
      if q (Node.edge (p * m + i)) = true then 1 else 0 := by
  rw [linkCnt_topoN]
  apply sum_map_range_single hp
  · rw [cnt_he_host m p p i j hi hj q, cnt_ea_host, cnt_ac_host, if_pos rfl]
    omega
  · intro a ha hne
    rw [cnt_he_host m a p i j hi hj q, cnt_ea_host, cnt_ac_host, if_neg hne]

lemma linkCnt_topoN_edge (m p i : Nat) (hp : p < 2 * m) (hi : i < m)
    (q : Node → Bool) :
    linkCnt (topoN m) (Node.edge (p * m + i)) q =
      (List.range m).countP (fun j => q (Node.host (p * (m * m) + (i * m + j)))) +
        (List.range m).countP (fun j => q (Node.aggr (p * m + j))) := by
  rw [linkCnt_topoN]
  apply sum_map_range_single hp
  · rw [cnt_he_edge m p p i hi q, cnt_ea_edge m p p i hi q, cnt_ac_edge,
      if_pos rfl, if_pos rfl]
    omega
  · intro a ha hne
    rw [cnt_he_edge m a p i hi q, cnt_ea_edge m a p i hi q, cnt_ac_edge,
      if_neg hne, if_neg hne]

lemma linkCnt_topoN_aggr (m p x : Nat) (hp : p < 2 * m) (hx : x < m)
    (q : Node → Bool) :
    linkCnt (topoN m) (Node.aggr (p * m + x)) q =
      (List.range m).countP (fun i => q (Node.edge (p * m + i))) +
        (List.range m).countP (fun j => q (Node.core (x * m + j))) := by
  rw [linkCnt_topoN]
  apply sum_map_range_single hp
  · rw [cnt_he_aggr, cnt_ea_aggr m p p x hx q, cnt_ac_aggr m p p x hx q,
      if_pos rfl, if_pos rfl]
    omega
  · intro a ha hne
    rw [cnt_he_aggr, cnt_ea_aggr m a p x hx q, cnt_ac_aggr m a p x hx q,
      if_neg hne, if_neg hne]

lemma linkCnt_topoN_core (m i₀ j₀ : Nat) (hi₀ : i₀ < m) (hj₀ : j₀ < m)
    (q : Node → Bool) :
    linkCnt (topoN m) (Node.core (i₀ * m + j₀)) q =
      (List.range (2 * m)).countP (fun a => q (Node.aggr (a * m + i₀))) := by
  rw [linkCnt_topoN,
    ← sum_ite_eq_countP (fun a => q (Node.aggr (a * m + i₀)))]
  congr 1
  apply List.map_congr_left
  intro a _
  rw [cnt_he_core, cnt_ea_core, cnt_ac_core m a i₀ j₀ hi₀ hj₀ q]
  omega

/-! ## Node membership shapes -/

lemma mem_nodes_host {m n : Nat} (h : Node.host n ∈ (topoN m).nodes) :
    ∃ p r, p < 2 * m ∧ r < m * m ∧ n = p * (m * m) + r := by
  simp only [topoN] at h
  rw [List.mem_append] at h
  rcases h with h | h
  · rw [List.mem_map] at h
    obtain ⟨x, _, hx⟩ := h
    exact absurd hx (by simp)
  · rw [List.mem_flatMap] at h
    obtain ⟨p, hp, h⟩ := h
    rw [List.mem_range] at hp
    rw [podNodesN, List.mem_append, List.mem_append] at h
    rcases h with (h | h) | h
    · rw [List.mem_map] at h
      obtain ⟨x, _, hx⟩ := h
      exact absurd hx (by simp)
    · rw [List.mem_map] at h
      obtain ⟨x, _, hx⟩ := h
      exact absurd hx (by simp)
    · rw [List.mem_map] at h
      obtain ⟨r, hr, hx⟩ := h
      rw [List.mem_range] at hr
      rw [Node.host.injEq] at hx
      exact ⟨p, r, hp, hr, hx.symm⟩

lemma mem_nodes_edge {m n : Nat} (h : Node.edge n ∈ (topoN m).nodes) :
    ∃ p i, p < 2 * m ∧ i < m ∧ n = p * m + i := by
  simp only [topoN] at h
  rw [List.mem_append] at h
  rcases h with h | h
  · rw [List.mem_map] at h
    obtain ⟨x, _, hx⟩ := h
    exact absurd hx (by simp)
  · rw [List.mem_flatMap] at h
    obtain ⟨p, hp, h⟩ := h
    rw [List.mem_range] at hp
    rw [podNodesN, List.mem_append, List.mem_append] at h
    rcases h with (h | h) | h
    · rw [List.mem_map] at h
      obtain ⟨x, _, hx⟩ := h
      exact absurd hx (by simp)
    · rw [List.mem_map] at h
      obtain ⟨i, hi, hx⟩ := h
      rw [List.mem_range] at hi
      rw [Node.edge.injEq] at hx
      exact ⟨p, i, hp, hi, hx.symm⟩
    · rw [List.mem_map] at h
      obtain ⟨x, _, hx⟩ := h
      exact absurd hx (by simp)

lemma mem_nodes_aggr {m n : Nat} (h : Node.aggr n ∈ (topoN m).nodes) :
    ∃ p i, p < 2 * m ∧ i < m ∧ n = p * m + i := by
  simp only [topoN] at h
  rw [List.mem_append] at h
  rcases h with h | h
  · rw [List.mem_map] at h
    obtain ⟨x, _, hx⟩ := h
    exact absurd hx (by simp)
  · rw [List.mem_flatMap] at h
    obtain ⟨p, hp, h⟩ := h
    rw [List.mem_range] at hp
    rw [podNodesN, List.mem_append, List.mem_append] at h
    rcases h with (h | h) | h
    · rw [List.mem_map] at h
      obtain ⟨i, hi, hx⟩ := h
      rw [List.mem_range] at hi
      rw [Node.aggr.injEq] at hx
      exact ⟨p, i, hp, hi, hx.symm⟩
    · rw [List.mem_map] at h
      obtain ⟨x, _, hx⟩ := h
      exact absurd hx (by simp)
    · rw [List.mem_map] at h
      obtain ⟨x, _, hx⟩ := h
      exact absurd hx (by simp)

lemma mem_nodes_core {m n : Nat} (h : Node.core n ∈ (topoN m).nodes) :
    n < m * m := by
  simp only [topoN] at h
  rw [List.mem_append] at h
  rcases h with h | h
  · rw [List.mem_map] at h
    obtain ⟨i, hi, hx⟩ := h
    rw [List.mem_range] at hi
    rw [Node.core.injEq] at hx
    omega
  · rw [List.mem_flatMap] at h
    obtain ⟨p, hp, h⟩ := h
    rw [podNodesN, List.mem_append, List.mem_append] at h
    rcases h with (h | h) | h <;>
      · rw [List.mem_map] at h
        obtain ⟨x, _, hx⟩ := h
        exact absurd hx (by simp)

lemma host_neighbor (m p i j : Nat) (hi : i < m) (hj : j < m) :
    ∀ l ∈ (topoN m).links,
      incident (Node.host (p * (m * m) + (i * m + j))) l = true →
      ∃ e, l = (Node.host (p * (m * m) + (i * m + j)), Node.edge e) ∧
        e / m = p := by
  intro l hl hinc
  simp only [topoN] at hl
  rw [List.mem_flatMap] at hl
  obtain ⟨a, ha, hl⟩ := hl
  rw [List.mem_range] at ha
  rw [podLinksN, List.mem_append, List.mem_append] at hl
  rcases hl with (hl | hl) | hl
  · obtain ⟨i', j', hi', hj', rfl⟩ := mem_hostEdgeN hl
    rw [incident] at hinc
    simp only [decide_eq_true_eq, Bool.or_eq_true] at hinc
    rcases hinc with hinc | hinc
    · rw [Node.host.injEq] at hinc
      obtain ⟨rfl, h2⟩ := (encInj (encLt hi' hj') (encLt hi hj)).1 hinc
      obtain ⟨rfl, rfl⟩ := (encInj hj' hj).1 h2
      exact ⟨a * m + i', rfl, encDiv hi'⟩
    · exact absurd hinc (by simp)
  · obtain ⟨i', j', hi', hj', rfl⟩ := mem_edgeAggrN hl
    rw [incident] at hinc
    simp at hinc
  · obtain ⟨i', j', hi', hj', rfl⟩ := mem_aggrCoreN hl
    rw [incident] at hinc
    simp at hinc

/-- Claim C4: in every built topology (even `k >= 2`) each host has exactly
one link, going to an edge switch of its own pod; each edge switch has
degree `k`, split as `k/2` host links and `k/2` same-pod aggregation links;
each aggregation switch has degree `k`, split as `k/2` same-pod edge links
and `k/2` core links; each core switch has degree `k`, all aggregation
links, exactly one into each pod. -/
theorem c4_degrees (k : Int) (hk : k % 2 = 0) (hk2 : 2 ≤ k) (t : Topology)
    (ht : build k = Except.ok t) :
    (∀ n, Node.host n ∈ t.nodes → degree t (Node.host n) = 1 ∧
      ∀ l ∈ t.links, incident (Node.host n) l = true →
        ∃ e, l = (Node.host n, Node.edge e) ∧
          e / halfK k = n / (halfK k * halfK k)) ∧
    (∀ n, Node.edge n ∈ t.nodes → degree t (Node.edge n) = k.toNat ∧
      linkCnt t (Node.edge n) isHost = halfK k ∧
      linkCnt t (Node.edge n) (isAggrInPod (halfK k) (n / halfK k)) =
        halfK k) ∧
    (∀ n, Node.aggr n ∈ t.nodes → degree t (Node.aggr n) = k.toNat ∧
      linkCnt t (Node.aggr n) (isEdgeInPod (halfK k) (n / halfK k)) =
        halfK k ∧
      linkCnt t (Node.aggr n) isCore = halfK k) ∧
    (∀ n, Node.core n ∈ t.nodes → degree t (Node.core n) = k.toNat ∧
      linkCnt t (Node.core n) isAggr = k.toNat ∧
      ∀ p, p < k.toNat → linkCnt t (Node.core n) (isAggrInPod (halfK k) p) =
        1) := by
  obtain ⟨m, hm, rfl⟩ := even_k_decomp k hk hk2
  rw [build_even] at ht
  injection ht with ht
  subst ht
  have hm0 : 0 < m := hm
  have htn : (2 * (m : Int)).toNat = 2 * m := by
    rw [show (2 * (m : Int)) = ((2 * m : Nat) : Int) by push_cast; ring,
      Int.toNat_natCast]
  rw [htn, halfK_two_mul]
  refine ⟨?_, ?_, ?_, ?_⟩
  · intro n hn
    obtain ⟨p, r, hp, hr, rfl⟩ := mem_nodes_host hn
    obtain ⟨i, j, hi, hj, rfl⟩ : ∃ i j, i < m ∧ j < m ∧ r = i * m + j :=
      ⟨r / m, r % m, by rw [Nat.div_lt_iff_lt_mul hm0]; exact hr,
        Nat.mod_lt _ hm0, by rw [Nat.mul_comm]; exact (Nat.div_add_mod r m).symm⟩
    constructor
    · rw [degree_eq_linkCnt, linkCnt_topoN_host m p i j hp hi hj]
      simp
    · intro l hl hinc
      obtain ⟨e, rfl, he⟩ := host_neighbor m p i j hi hj l hl hinc
      exact ⟨e, rfl, by rw [he, encDiv (encLt hi hj)]⟩
  · intro n hn
    obtain ⟨p, i, hp, hi, rfl⟩ := mem_nodes_edge hn
    have hdivp : (p * m + i) / m = p := encDiv hi
    refine ⟨?_, ?_, ?_⟩
    · rw [degree_eq_linkCnt, linkCnt_topoN_edge m p i hp hi]
      simp only [List.countP_true, List.length_range]
      omega
    · rw [linkCnt_topoN_edge m p i hp hi]
      have h1 : List.countP
          (fun j => isHost (Node.host (p * (m * m) + (i * m + j))))
          (List.range m) = m := countP_range_full (fun _ _ => rfl)
      have h2 : List.countP (fun j => isHost (Node.aggr (p * m + j)))
          (List.range m) = 0 := countP_range_eq_zero (fun _ _ => rfl)
      rw [h1, h2]
      omega
    · rw [hdivp, linkCnt_topoN_edge m p i hp hi]
      have h1 : List.countP
          (fun j => isAggrInPod m p (Node.host (p * (m * m) + (i * m + j))))
          (List.range m) = 0 := countP_range_eq_zero (fun _ _ => rfl)
      have h2 : List.countP (fun j => isAggrInPod m p (Node.aggr (p * m + j)))
          (List.range m) = m :=
        countP_range_full (fun j hj => by simp [isAggrInPod, encDiv hj])
      rw [h1, h2]
      omega
  · intro n hn
    obtain ⟨p, x, hp, hx, rfl⟩ := mem_nodes_aggr hn
    have hdivp : (p * m + x) / m = p := encDiv hx
    refine ⟨?_, ?_, ?_⟩
    · rw [degree_eq_linkCnt, linkCnt_topoN_aggr m p x hp hx]
      simp only [List.countP_true, List.length_range]
      omega
    · rw [hdivp, linkCnt_topoN_aggr m p x hp hx]
      have h1 : List.countP (fun i => isEdgeInPod m p (Node.edge (p * m + i)))
          (List.range m) = m :=
        countP_range_full (fun i hi => by simp [isEdgeInPod, encDiv hi])
      have h2 : List.countP (fun j => isEdgeInPod m p (Node.core (x * m + j)))
          (List.range m) = 0 := countP_range_eq_zero (fun _ _ => rfl)
      rw [h1, h2]
      omega
    · rw [linkCnt_topoN_aggr m p x hp hx]
      have h1 : List.countP (fun i => isCore (Node.edge (p * m + i)))
          (List.range m) = 0 := countP_range_eq_zero (fun _ _ => rfl)
      have h2 : List.countP (fun j => isCore (Node.core (x * m + j)))
          (List.range m) = m := countP_range_full (fun _ _ => rfl)
      rw [h1, h2]
      omega
  · intro n hn
    have hn2 := mem_nodes_core hn
    obtain ⟨i₀, j₀, hi₀, hj₀, rfl⟩ : ∃ i₀ j₀, i₀ < m ∧ j₀ < m ∧
        n = i₀ * m + j₀ :=
      ⟨n / m, n % m, by rw [Nat.div_lt_iff_lt_mul hm0]; exact hn2,
        Nat.mod_lt _ hm0, by rw [Nat.mul_comm]; exact (Nat.div_add_mod n m).symm⟩
    refine ⟨?_, ?_, ?_⟩
    · rw [degree_eq_linkCnt, linkCnt_topoN_core m i₀ j₀ hi₀ hj₀]
      simp only [List.countP_true, List.length_range]
    · rw [linkCnt_topoN_core m i₀ j₀ hi₀ hj₀]
      have h1 : List.countP (fun a => isAggr (Node.aggr (a * m + i₀)))
          (List.range (2 * m)) = 2 * m := countP_range_full (fun _ _ => rfl)
      rw [h1]
    · intro p hp
      rw [linkCnt_topoN_core m i₀ j₀ hi₀ hj₀]
      apply countP_range_eq_one hp
      · simp [isAggrInPod, encDiv hi₀]
      · intro a ha hpa
        simp only [isAggrInPod, encDiv hi₀, decide_eq_true_eq] at hpa
        exact hpa

theorem c4_witness :
    (2 : Int) % 2 = 0 ∧ (2 : Int) ≤ 2 ∧ build 2 = Except.ok (topoN 1) ∧
    Node.host 0 ∈ (topoN 1).nodes ∧ degree (topoN 1) (Node.host 0) = 1 ∧
    Node.core 0 ∈ (topoN 1).nodes ∧
    degree (topoN 1) (Node.core 0) = (2 : Int).toNat := by
  have hbuild : build 2 = Except.ok (topoN 1) := by
    rw [show (2 : Int) = 2 * ((1 : Nat) : Int) by norm_num]
    exact build_even 1
  have h := c4_degrees 2 (by decide) (by decide) (topoN 1) hbuild
  exact ⟨by decide, by decide, hbuild, by decide, (h.1 0 (by decide)).1,
    by decide, (h.2.2.2 0 (by decide)).1⟩
